import Mathlib

set_option maxRecDepth 16000

/-!
Verification of the two renaming scripts of this repository.

`update_imports.py` (Renamer B) rewrites the import path
`"github.com/jamesainslie/dot/pkg/dot"` to
`"github.com/jamesainslie/dot/internal/domain"` in all `*.go` files under nine
subdirectories of `internal/`, and, when the new import path is present
afterwards, rewrites word-bounded `dot.` identifier prefixes to `domain.`.

`fix_renderer.py` (Renamer A) operates on a fixed list of renderer files,
conditionally inserts a `pkg/dot` import line after the `internal/domain`
one, and replaces `domain.Status` / `domain.PackageInfo` by
`dot.Status` / `dot.PackageInfo`.

File contents are modelled as `List Char`.  Python `str.replace` is modelled
by `replaceAll` (leftmost, non-overlapping, scan continues after the
replaced occurrence), `re.sub(r'\bdot\.', 'domain.', s)` by `subDot`
(a left-to-right scan that tracks whether the previous character is a word
character), and the filesystem by an association list from paths to file
records carrying a modification counter.
-/

/-- ASCII word character, as used by the regex word boundary in the scripts'
inputs: letters, digits and underscore. -/
def isWordChar (c : Char) : Bool := c.isAlphanum || c = '_'

/-- Substring test: does `pat` occur (contiguously) in the list? -/
def containsSub (pat : List Char) : List Char → Bool
  | [] => pat.isEmpty
  | c :: cs => pat.isPrefixOf (c :: cs) || containsSub pat cs

/-- Number of positions at which `pat` occurs (occurrences may overlap). -/
def countSub (pat : List Char) : List Char → Nat
  | [] => 0
  | c :: cs => (if pat.isPrefixOf (c :: cs) then 1 else 0) + countSub pat cs

/-- Fuel-indexed model of Python `str.replace`: scan left to right, replace
each occurrence of `pat` by `rep`, continue after the replaced occurrence.
The fuel dominates the length of the input, so with `fuel = s.length` the
zero-fuel row is never reached on a nonempty list. -/
def replaceAllAux (pat rep : List Char) : Nat → List Char → List Char
  | _, [] => []
  | 0, s => s
  | fuel + 1, c :: cs =>
    if pat.isPrefixOf (c :: cs) then
      rep ++ replaceAllAux pat rep fuel (cs.drop (pat.length - 1))
    else
      c :: replaceAllAux pat rep fuel cs

/-- Python `s.replace(pat, rep)`. -/
def replaceAll (pat rep s : List Char) : List Char :=
  replaceAllAux pat rep s.length s

/-- The pattern text of the regex `\bdot\.`. -/
def dotPat : List Char := ("dot.").data

/-- The replacement text of the identifier rewrite. -/
def domRep : List Char := ("domain.").data

/-- Fuel-indexed model of `re.sub(r'\bdot\.', 'domain.', s)`: the Boolean
argument records whether the previously scanned character is a word
character (`False` at the start of the string). -/
def subDotAux : Nat → Bool → List Char → List Char
  | _, _, [] => []
  | 0, _, s => s
  | fuel + 1, prevW, c :: cs =>
    if !prevW && dotPat.isPrefixOf (c :: cs) then
      domRep ++ subDotAux fuel false (cs.drop 3)
    else
      c :: subDotAux fuel (isWordChar c) cs

/-- `re.sub(r'\bdot\.', 'domain.', s)`. -/
def subDot (s : List Char) : List Char := subDotAux s.length false s

/-- Is there an occurrence of `dot.` at a word boundary (not preceded by a
word character), given the word-character status of the previous char? -/
def hasBDot : Bool → List Char → Bool
  | _, [] => false
  | prevW, c :: cs => (!prevW && dotPat.isPrefixOf (c :: cs)) || hasBDot (isWordChar c) cs

/-- Number of occurrences of `dot.` that are NOT at a word boundary (the
occurrence is immediately preceded by a word character). -/
def countNBDot : Bool → List Char → Nat
  | _, [] => 0
  | prevW, c :: cs =>
    (if prevW && dotPat.isPrefixOf (c :: cs) then 1 else 0) + countNBDot (isWordChar c) cs

/-- The old quoted import path replaced by Renamer B. -/
def pkgImp : List Char := ("\"github.com/jamesainslie/dot/pkg/dot\"").data

/-- The new quoted import path inserted by Renamer B (and matched by
Renamer A's insertion). -/
def domImp : List Char := ("\"github.com/jamesainslie/dot/internal/domain\"").data

/-- The unquoted marker tested by Renamer B before the identifier rewrite. -/
def domMarker : List Char := ("github.com/jamesainslie/dot/internal/domain").data

/-- The bare marker tested by Renamer A's insertion condition. -/
def bareDom : List Char := ("internal/domain").data

/-- The bare marker whose absence Renamer A's insertion condition requires. -/
def barePkg : List Char := ("pkg/dot").data

/-- The text appended after the domain import line by Renamer A. -/
def insTail : List Char := ("\n\t\"github.com/jamesainslie/dot/pkg/dot\"").data

/-- The full replacement used by Renamer A's insertion step. -/
def insRep : List Char := domImp ++ insTail

/-- `domain.Status`. -/
def dStatus : List Char := ("domain.Status").data

/-- `dot.Status`. -/
def tStatus : List Char := ("dot.Status").data

/-- `domain.PackageInfo`. -/
def dPkgInfo : List Char := ("domain.PackageInfo").data

/-- `dot.PackageInfo`. -/
def tPkgInfo : List Char := ("dot.PackageInfo").data

/-- The per-file content transformation of `update_imports_in_file`
(update_imports.py, lines 8-27): replace the import string, then, if the
new import path marker is present, rewrite word-bounded `dot.` to
`domain.`. -/
def updateContent (content : List Char) : List Char :=
  let c1 := replaceAll pkgImp domImp content
  if containsSub domMarker c1 then subDot c1 else c1

/-- Renamer A's conditional import insertion (fix_renderer.py, lines 27-32). -/
def insertImport (content : List Char) : List Char :=
  if containsSub bareDom content && !containsSub barePkg content then
    replaceAll domImp insRep content
  else content

/-- The per-file content transformation of Renamer A (fix_renderer.py,
lines 27-37): conditional insertion, then the two unconditional literal
replacements. -/
def fixContent (content : List Char) : List Char :=
  replaceAll dPkgInfo tPkgInfo (replaceAll dStatus tStatus (insertImport content))

/-- A path, relative to the hardcoded root, as a list of components. -/
abbrev FPath := List String

/-- A file on disk: its content and a modification counter that every
write bumps. -/
structure FSFile where
  content : List Char
  mtime : Nat
deriving DecidableEq

/-- The filesystem: an association list from paths to files. -/
abbrev FSt := List (FPath × FSFile)

/-- Look a path up in the filesystem. -/
def lookupFS : FSt → FPath → Option FSFile
  | [], _ => none
  | e :: rest, p => if e.1 = p then some e.2 else lookupFS rest p

/-- Write `c` to path `p`: updates the entry in place and bumps its
modification counter.  Writing never creates or removes entries. -/
def writeFS (fs : FSt) (p : FPath) (c : List Char) : FSt :=
  fs.map (fun e => if e.1 = p then (e.1, FSFile.mk c (e.2.mtime + 1)) else e)

/-- The fixed file list of fix_renderer.py. -/
def files : List FPath := [
  ["internal", "cli", "renderer", "json.go"],
  ["internal", "cli", "renderer", "table.go"],
  ["internal", "cli", "renderer", "text.go"],
  ["internal", "cli", "renderer", "yaml.go"],
  ["internal", "cli", "renderer", "text_test.go"],
  ["internal", "cli", "renderer", "renderer_test.go"]]

/-- One iteration of fix_renderer.py's loop: skip a missing file, otherwise
read, transform and write back unconditionally. -/
def stepA (fs : FSt) (p : FPath) : FSt :=
  match lookupFS fs p with
  | none => fs
  | some f => writeFS fs p (fixContent f.content)

/-- The whole run of fix_renderer.py. -/
def fixRenderer (fs : FSt) : FSt := files.foldl stepA fs

/-- The package list of update_imports.py (internal/domain and internal/api
are deliberately absent). -/
def packages : List String :=
  ["executor", "pipeline", "scanner", "planner", "manifest", "config", "adapters", "ignore", "cli"]

/-- Does a file name match the glob `*.go`? -/
def endsWithGo (s : String) : Bool := (".go").data.isSuffixOf s.data

/-- Is `p` a `*.go` file somewhere under `internal/<pkg>/`? -/
def underPkg (pkg : String) (p : FPath) : Bool :=
  match p with
  | d1 :: d2 :: rest =>
    d1 == "internal" && d2 == pkg &&
      (match rest.getLast? with
       | some nm => endsWithGo nm
       | none => false)
  | _ => false

/-- `package_dir.rglob('*.go')`: the files of the filesystem lying under
`internal/<pkg>/`, in filesystem order. -/
def rglobGo (fs : FSt) (pkg : String) : List FPath :=
  (fs.filter (fun e => underPkg pkg e.1)).map Prod.fst

/-- `update_imports_in_file` (update_imports.py, lines 8-33): read the file,
transform the content, write back only if changed; returns whether the file
changed.  (`rglob` only yields existing files, so the `none` branch is
unreachable in a run.) -/
def updateImportsInFile (fs : FSt) (p : FPath) : FSt × Bool :=
  match lookupFS fs p with
  | none => (fs, false)
  | some f =>
    let c2 := updateContent f.content
    if c2 = f.content then (fs, false) else (writeFS fs p c2, true)

/-- The body of the inner loop of update_imports.py's `main`: process one
file and record its path when it changed. -/
def processFileB (st : FSt × List FPath) (p : FPath) : FSt × List FPath :=
  let r := updateImportsInFile st.1 p
  (r.1, if r.2 then st.2 ++ [p] else st.2)

/-- The body of the outer loop of `main`: skip a package whose directory
does not exist, otherwise process all its `*.go` files. -/
def processPkgB (dirs : List FPath) (st : FSt × List FPath) (pkg : String) : FSt × List FPath :=
  if dirs.contains (("internal" : String) :: pkg :: []) then
    (rglobGo st.1 pkg).foldl processFileB st
  else st

/-- The whole run of update_imports.py's `main`: `dirs` is the set of
directories that exist on disk; returns the final filesystem and the
reported changed-files list. -/
def updateImportsMain (dirs : List FPath) (fs : FSt) : FSt × List FPath :=
  packages.foldl (processPkgB dirs) (fs, [])

/-- Is `p` one of the files a run of update_imports.py may touch? -/
def inScopeB (p : FPath) : Bool := packages.any (fun pkg => underPkg pkg p)

theorem containsSub_iff (pat s : List Char) : containsSub pat s = true ↔ pat <:+: s := by
  induction s with
  | nil => simp [containsSub, List.isEmpty_iff, List.infix_nil]
  | cons c cs ih =>
    simp [containsSub, ih, List.infix_cons_iff, List.isPrefixOf_iff_prefix]

theorem containsSub_false_iff (pat s : List Char) : containsSub pat s = false ↔ ¬ pat <:+: s := by
  rw [← containsSub_iff]
  simp

theorem replaceAllAux_id (pat rep : List Char) :
    ∀ (fuel : Nat) (s : List Char), ¬ pat <:+: s → replaceAllAux pat rep fuel s = s := by
  intro fuel
  induction fuel with
  | zero => intro s _; cases s <;> simp [replaceAllAux]
  | succ n ih =>
    intro s h
    cases s with
    | nil => simp [replaceAllAux]
    | cons c cs =>
      have h1 : ¬ pat <+: (c :: cs) := fun hp => h hp.isInfix
      have h2 : ¬ pat <:+: cs := fun hi => h (hi.trans (List.suffix_cons c cs).isInfix)
      have hb : pat.isPrefixOf (c :: cs) = false := by
        rw [Bool.eq_false_iff]
        intro hb
        exact h1 ( List.isPrefixOf_iff_prefix.mp hb)
      simp [replaceAllAux, hb, ih cs h2]

theorem replaceAll_id (pat rep s : List Char) (h : ¬ pat <:+: s) : replaceAll pat rep s = s :=
  replaceAllAux_id pat rep s.length s h

theorem ifx_append_cases {X A B : List Char} (h : X <:+: A ++ B) :
    X <:+: B ∨ ∃ a2, a2 <:+ A ∧ a2 ≠ [] ∧ X <+: a2 ++ B := by
  induction A with
  | nil => exact Or.inl (by simpa using h)
  | cons a A' ih =>
    rcases List.infix_cons_iff.mp (by simpa using h) with hp | hi
    · exact Or.inr ⟨a :: A', List.suffix_refl _, by simp, by simpa using hp⟩
    · rcases ih hi with h1 | ⟨a2, hs, hne, hp⟩
      · exact Or.inl h1
      · exact Or.inr ⟨a2, hs.trans (List.suffix_cons a A'), hne, hp⟩

theorem pfx_append_cases {X a2 W : List Char} (h : X <+: a2 ++ W) : X <+: a2 ∨ a2 <+: X :=
  List.prefix_or_prefix_of_prefix h (List.prefix_append a2 W)

theorem lookupFS_writeFS_self (fs : FSt) (p : FPath) (c : List Char) (f : FSFile)
    (h : lookupFS fs p = some f) :
    lookupFS (writeFS fs p c) p = some (FSFile.mk c (f.mtime + 1)) := by
  induction fs with
  | nil => simp [lookupFS] at h
  | cons e rest ih =>
    by_cases he : e.1 = p
    · simp [lookupFS, he] at h
      subst h
      simp [writeFS, lookupFS, he]
    · simp [lookupFS, he] at h
      have := ih h
      simp [writeFS, lookupFS, he] at this ⊢
      exact this

theorem lookupFS_writeFS_ne (fs : FSt) (p q : FPath) (c : List Char) (h : p ≠ q) :
    lookupFS (writeFS fs q c) p = lookupFS fs p := by
  induction fs with
  | nil => rfl
  | cons e rest ih =>
    show lookupFS ((if e.1 = q then (e.1, FSFile.mk c (e.2.mtime + 1)) else e) :: writeFS rest q c) p
        = lookupFS (e :: rest) p
    by_cases he : e.1 = q
    · rw [if_pos he]
      have hne : ¬ e.1 = p := fun hh => h (hh ▸ he)
      show (if e.1 = p then some (FSFile.mk c (e.2.mtime + 1)) else lookupFS (writeFS rest q c) p)
          = (if e.1 = p then some e.2 else lookupFS rest p)
      rw [if_neg hne, if_neg hne, ih]
    · rw [if_neg he]
      show (if e.1 = p then some e.2 else lookupFS (writeFS rest q c) p)
          = (if e.1 = p then some e.2 else lookupFS rest p)
      by_cases hp : e.1 = p
      · rw [if_pos hp, if_pos hp]
      · rw [if_neg hp, if_neg hp, ih]

theorem lookupFS_none_writeFS (fs : FSt) (p q : FPath) (c : List Char)
    (h : lookupFS fs p = none) : lookupFS (writeFS fs q c) p = none := by
  induction fs with
  | nil => rfl
  | cons e rest ih =>
    have hld : (if e.1 = p then some e.2 else lookupFS rest p) = none := h
    by_cases hp : e.1 = p
    · rw [if_pos hp] at hld
      exact absurd hld (by simp)
    · rw [if_neg hp] at hld
      show lookupFS ((if e.1 = q then (e.1, FSFile.mk c (e.2.mtime + 1)) else e) :: writeFS rest q c) p
          = none
      by_cases he : e.1 = q
      · rw [if_pos he]
        show (if e.1 = p then some (FSFile.mk c (e.2.mtime + 1)) else lookupFS (writeFS rest q c) p)
            = none
        rw [if_neg hp]
        exact ih hld
      · rw [if_neg he]
        show (if e.1 = p then some e.2 else lookupFS (writeFS rest q c) p) = none
        rw [if_neg hp]
        exact ih hld

theorem pfxReflect (pat rep X : List Char)
    (h3 : ∀ z ∈ X.tails, z.length < X.length → z ≠ [] → ¬ z <+: rep ∧ ¬ rep <+: z) :
    ∀ (fuel : Nat) (t z : List Char), z <:+ X → z.length < X.length →
      z <+: replaceAllAux pat rep fuel t → z <+: t := by
  intro fuel
  induction fuel with
  | zero =>
    intro t z _ _ hp
    cases t with
    | nil => exact hp
    | cons c cs => exact hp
  | succ n ih =>
    intro t z hzX hzlen hp
    cases t with
    | nil => exact hp
    | cons c cs =>
      by_cases hm : pat.isPrefixOf (c :: cs)
      · have hp' : z <+: rep ++ replaceAllAux pat rep n (cs.drop (pat.length - 1)) := by
          rwa [show replaceAllAux pat rep (n + 1) (c :: cs)
              = rep ++ replaceAllAux pat rep n (cs.drop (pat.length - 1)) from by
            simp [replaceAllAux, hm]] at hp
        rcases eq_or_ne z [] with rfl | hzne
        · exact List.nil_prefix
        · rcases pfx_append_cases hp' with h1 | h1
          · exact absurd h1 (h3 z ((List.mem_tails _ _).mpr hzX) hzlen hzne).1
          · exact absurd h1 (h3 z ((List.mem_tails _ _).mpr hzX) hzlen hzne).2
      · have hp' : z <+: c :: replaceAllAux pat rep n cs := by
          rwa [show replaceAllAux pat rep (n + 1) (c :: cs) = c :: replaceAllAux pat rep n cs from by
            simp [replaceAllAux, hm]] at hp
        cases z with
        | nil => exact List.nil_prefix
        | cons z0 z' =>
          rcases List.cons_prefix_cons.mp hp' with ⟨rfl, hz'⟩
          have hz'X : z' <:+ X := (List.tail_suffix (z0 :: z')).trans hzX
          have hz'len : z'.length < X.length := by
            simp only [List.length_cons] at hzlen
            omega
          exact List.cons_prefix_cons.mpr ⟨rfl, ih cs z' hz'X hz'len hz'⟩

theorem replaceAllAux_no_pat (pat rep : List Char)
    (h1 : ¬ pat <:+: rep)
    (h2 : ∀ u ∈ rep.tails, u ≠ [] → ¬ u <+: pat)
    (h3 : ∀ z ∈ pat.tails, z.length < pat.length → z ≠ [] → ¬ z <+: rep ∧ ¬ rep <+: z) :
    ∀ (fuel : Nat) (s : List Char), s.length ≤ fuel →
      ¬ pat <:+: replaceAllAux pat rep fuel s := by
  have hpne : pat ≠ [] := fun hh => h1 (hh ▸ List.nil_infix)
  intro fuel
  induction fuel with
  | zero =>
    intro s hlen
    have hs : s = [] := List.length_eq_zero.mp (Nat.le_zero.mp hlen)
    subst hs
    rw [show replaceAllAux pat rep 0 ([] : List Char) = [] from rfl, List.infix_nil]
    exact hpne
  | succ n ih =>
    intro s hlen
    cases s with
    | nil =>
      rw [show replaceAllAux pat rep (n + 1) ([] : List Char) = [] from rfl, List.infix_nil]
      exact hpne
    | cons c cs =>
      simp only [List.length_cons] at hlen
      by_cases hm : pat.isPrefixOf (c :: cs)
      · rw [show replaceAllAux pat rep (n + 1) (c :: cs)
            = rep ++ replaceAllAux pat rep n (cs.drop (pat.length - 1)) from by
          simp [replaceAllAux, hm]]
        intro hcon
        rcases ifx_append_cases hcon with hB | ⟨a2, hsfx, hne, hpfx⟩
        · exact ih (cs.drop (pat.length - 1)) (by simp only [List.length_drop]; omega) hB
        · rcases pfx_append_cases hpfx with hx | hx
          · exact h1 (hx.isInfix.trans hsfx.isInfix)
          · exact h2 a2 ((List.mem_tails _ _).mpr hsfx) hne hx
      · rw [show replaceAllAux pat rep (n + 1) (c :: cs) = c :: replaceAllAux pat rep n cs from by
          simp [replaceAllAux, hm]]
        intro hcon
        rcases List.infix_cons_iff.mp hcon with hpf | hin
        · cases pat with
          | nil => exact hpne rfl
          | cons p0 pat' =>
            rcases List.cons_prefix_cons.mp hpf with ⟨rfl, hp'⟩
            have hp'cs : pat' <+: cs := by
              rcases eq_or_ne pat' [] with rfl | hne
              · exact List.nil_prefix
              · exact pfxReflect (p0 :: pat') rep (p0 :: pat') h3 n cs pat'
                  ⟨[p0], rfl⟩ (by simp) hp'
            exact hm ( List.isPrefixOf_iff_prefix.mpr (List.cons_prefix_cons.mpr ⟨rfl, hp'cs⟩))
        · exact ih cs (by omega) hin

theorem replaceAllAux_no_new (pat rep X : List Char)
    (h1 : ¬ X <:+: rep)
    (h2 : ∀ u ∈ rep.tails, u ≠ [] → ¬ u <+: X)
    (h3 : ∀ z ∈ X.tails, z.length < X.length → z ≠ [] → ¬ z <+: rep ∧ ¬ rep <+: z) :
    ∀ (fuel : Nat) (s : List Char), s.length ≤ fuel → ¬ X <:+: s →
      ¬ X <:+: replaceAllAux pat rep fuel s := by
  have hXne : X ≠ [] := fun hh => h1 (hh ▸ List.nil_infix)
  intro fuel
  induction fuel with
  | zero =>
    intro s hlen hX
    have hs : s = [] := List.length_eq_zero.mp (Nat.le_zero.mp hlen)
    subst hs
    exact hX
  | succ n ih =>
    intro s hlen hX
    cases s with
    | nil => exact hX
    | cons c cs =>
      simp only [List.length_cons] at hlen
      have hXcs : ¬ X <:+: cs := fun hh => hX (hh.trans (List.suffix_cons c cs).isInfix)
      by_cases hm : pat.isPrefixOf (c :: cs)
      · rw [show replaceAllAux pat rep (n + 1) (c :: cs)
            = rep ++ replaceAllAux pat rep n (cs.drop (pat.length - 1)) from by
          simp [replaceAllAux, hm]]
        intro hcon
        rcases ifx_append_cases hcon with hB | ⟨a2, hsfx, hne, hpfx⟩
        · have hXrest : ¬ X <:+: cs.drop (pat.length - 1) :=
            fun hh => hXcs (hh.trans (List.drop_suffix _ _).isInfix)
          exact ih (cs.drop (pat.length - 1)) (by simp only [List.length_drop]; omega) hXrest hB
        · rcases pfx_append_cases hpfx with hx | hx
          · exact h1 (hx.isInfix.trans hsfx.isInfix)
          · exact h2 a2 ((List.mem_tails _ _).mpr hsfx) hne hx
      · rw [show replaceAllAux pat rep (n + 1) (c :: cs) = c :: replaceAllAux pat rep n cs from by
          simp [replaceAllAux, hm]]
        intro hcon
        rcases List.infix_cons_iff.mp hcon with hpf | hin
        · cases X with
          | nil => exact hXne rfl
          | cons x0 X' =>
            rcases List.cons_prefix_cons.mp hpf with ⟨rfl, hp'⟩
            have hp'cs : X' <+: cs := by
              rcases eq_or_ne X' [] with rfl | hne
              · exact List.nil_prefix
              · exact pfxReflect pat rep (x0 :: X') h3 n cs X' ⟨[x0], rfl⟩ (by simp) hp'
            exact hX (List.cons_prefix_cons.mpr ⟨rfl, hp'cs⟩).isInfix
        · exact ih cs (by omega) hXcs hin

theorem pfxForward (pat rep X : List Char)
    (hpX : ¬ pat <:+: X)
    (h4 : ∀ z ∈ X.tails, z ≠ [] → ¬ z <+: pat) :
    ∀ (fuel : Nat) (t z : List Char), z <:+ X → z <+: t →
      z <+: replaceAllAux pat rep fuel t := by
  intro fuel
  induction fuel with
  | zero =>
    intro t z _ hp
    cases t with
    | nil => exact hp
    | cons c cs => exact hp
  | succ n ih =>
    intro t z hzX hp
    cases t with
    | nil => exact hp
    | cons c cs =>
      by_cases hm : pat.isPrefixOf (c :: cs)
      · rcases eq_or_ne z [] with rfl | hzne
        · exact List.nil_prefix
        · have hpat : pat <+: c :: cs := List.isPrefixOf_iff_prefix.mp hm
          rcases List.prefix_or_prefix_of_prefix hp hpat with h5 | h5
          · exact absurd h5 (h4 z ((List.mem_tails _ _).mpr hzX) hzne)
          · exact absurd (h5.isInfix.trans hzX.isInfix) hpX
      · rw [show replaceAllAux pat rep (n + 1) (c :: cs) = c :: replaceAllAux pat rep n cs from by
          simp [replaceAllAux, hm]]
        cases z with
        | nil => exact List.nil_prefix
        | cons z0 z' =>
          rcases List.cons_prefix_cons.mp hp with ⟨rfl, hz'⟩
          exact List.cons_prefix_cons.mpr
            ⟨rfl, ih cs z' ((List.tail_suffix (z0 :: z')).trans hzX) hz'⟩

theorem replaceAllAux_preserves (pat rep X : List Char)
    (hXp : ¬ X <:+: pat) (hpX : ¬ pat <:+: X)
    (h3 : ∀ z ∈ pat.tails, z ≠ [] → ¬ z <+: X)
    (h4 : ∀ z ∈ X.tails, z ≠ [] → ¬ z <+: pat) :
    ∀ (fuel : Nat) (s : List Char), s.length ≤ fuel → X <:+: s →
      X <:+: replaceAllAux pat rep fuel s := by
  have hpne : pat ≠ [] := fun hh => hpX (hh ▸ List.nil_infix)
  intro fuel
  induction fuel with
  | zero =>
    intro s hlen hX
    have hs : s = [] := List.length_eq_zero.mp (Nat.le_zero.mp hlen)
    subst hs
    exact hX
  | succ n ih =>
    intro s hlen hX
    cases s with
    | nil => exact hX
    | cons c cs =>
      simp only [List.length_cons] at hlen
      by_cases hm : pat.isPrefixOf (c :: cs)
      · rw [show replaceAllAux pat rep (n + 1) (c :: cs)
            = rep ++ replaceAllAux pat rep n (cs.drop (pat.length - 1)) from by
          simp [replaceAllAux, hm]]
        have hpat : pat <+: c :: cs := List.isPrefixOf_iff_prefix.mp hm
        have hsplit : pat ++ (c :: cs).drop pat.length = c :: cs :=
          List.prefix_iff_eq_append.mp hpat
        have hdrop : (c :: cs).drop pat.length = cs.drop (pat.length - 1) := by
          cases pat with
          | nil => exact absurd rfl hpne
          | cons p0 pat' => simp
        rw [hdrop] at hsplit
        rw [← hsplit] at hX
        rcases ifx_append_cases hX with hB | ⟨a2, hsfx, hne, hpfx⟩
        · have : X <:+: replaceAllAux pat rep n (cs.drop (pat.length - 1)) :=
            ih (cs.drop (pat.length - 1)) (by simp only [List.length_drop]; omega) hB
          exact this.trans (List.suffix_append rep _).isInfix
        · rcases pfx_append_cases hpfx with hx | hx
          · exact absurd (hx.isInfix.trans hsfx.isInfix) hXp
          · exact absurd hx (h3 a2 ((List.mem_tails _ _).mpr hsfx) hne)
      · rw [show replaceAllAux pat rep (n + 1) (c :: cs) = c :: replaceAllAux pat rep n cs from by
          simp [replaceAllAux, hm]]
        rcases List.infix_cons_iff.mp hX with hpf | hin
        · cases X with
          | nil => exact List.nil_infix
          | cons x0 X' =>
            rcases List.cons_prefix_cons.mp hpf with ⟨rfl, hp'⟩
            have : X' <+: replaceAllAux pat rep n cs :=
              pfxForward pat rep (x0 :: X') hpX h4 n cs X'
                (List.tail_suffix (x0 :: X')) hp'
            exact (List.cons_prefix_cons.mpr ⟨rfl, this⟩).isInfix
        · exact (ih cs (by omega) hin).trans (List.suffix_cons c _).isInfix

theorem replaceAllAux_introduces (pat rep X : List Char)
    (hXr : X <:+: rep) (hpne : pat ≠ []) :
    ∀ (fuel : Nat) (s : List Char), s.length ≤ fuel → pat <:+: s →
      X <:+: replaceAllAux pat rep fuel s := by
  intro fuel
  induction fuel with
  | zero =>
    intro s hlen hps
    have hs : s = [] := List.length_eq_zero.mp (Nat.le_zero.mp hlen)
    subst hs
    exact absurd (List.infix_nil.mp hps) hpne
  | succ n ih =>
    intro s hlen hps
    cases s with
    | nil => exact absurd (List.infix_nil.mp hps) hpne
    | cons c cs =>
      simp only [List.length_cons] at hlen
      by_cases hm : pat.isPrefixOf (c :: cs)
      · rw [show replaceAllAux pat rep (n + 1) (c :: cs)
            = rep ++ replaceAllAux pat rep n (cs.drop (pat.length - 1)) from by
          simp [replaceAllAux, hm]]
        exact hXr.trans (List.prefix_append rep _).isInfix
      · rw [show replaceAllAux pat rep (n + 1) (c :: cs) = c :: replaceAllAux pat rep n cs from by
          simp [replaceAllAux, hm]]
        have hcs : pat <:+: cs := by
          rcases List.infix_cons_iff.mp hps with hpf | hin
          · exact absurd ( List.isPrefixOf_iff_prefix.mpr hpf) hm
          · exact hin
        exact (ih cs (by omega) hcs).trans (List.suffix_cons c _).isInfix

theorem dotPat_not_pfx {c : Char} (cs : List Char) (h : ('d' == c) = false) :
    dotPat.isPrefixOf (c :: cs) = false := by
  simp [dotPat, List.isPrefixOf, h]

theorem dotPat_not_pfx_dom (cs : List Char) :
    dotPat.isPrefixOf ('d' :: 'o' :: 'm' :: cs) = false := by
  have h : ('t' == 'm') = false := by decide
  simp [dotPat, List.isPrefixOf, h]

theorem hasBDot_skip (p : Bool) {c : Char} {cs : List Char}
    (h : dotPat.isPrefixOf (c :: cs) = false) :
    hasBDot p (c :: cs) = hasBDot (isWordChar c) cs := by
  simp [hasBDot, h]

theorem hasBDot_domRep (p : Bool) (w : List Char) :
    hasBDot p (domRep ++ w) = hasBDot false w := by
  rw [show domRep ++ w = 'd' :: 'o' :: 'm' :: 'a' :: 'i' :: 'n' :: '.' :: w from rfl]
  rw [hasBDot_skip p (dotPat_not_pfx_dom _)]
  rw [hasBDot_skip _ (dotPat_not_pfx _ (by decide))]
  rw [hasBDot_skip _ (dotPat_not_pfx _ (by decide))]
  rw [hasBDot_skip _ (dotPat_not_pfx _ (by decide))]
  rw [hasBDot_skip _ (dotPat_not_pfx _ (by decide))]
  rw [hasBDot_skip _ (dotPat_not_pfx _ (by decide))]
  rw [hasBDot_skip _ (dotPat_not_pfx _ (by decide))]
  rw [show isWordChar '.' = false from by decide]

theorem subPfxReflect :
    ∀ (fuel : Nat) (p : Bool) (t z : List Char), z <:+ dotPat → z.length < dotPat.length →
      z <+: subDotAux fuel p t → z <+: t := by
  intro fuel
  induction fuel with
  | zero =>
    intro p t z _ _ hp
    cases t with
    | nil => exact hp
    | cons c cs => exact hp
  | succ n ih =>
    intro p t z hz hzlen hp
    cases t with
    | nil => exact hp
    | cons c cs =>
      by_cases hm : (!p && dotPat.isPrefixOf (c :: cs)) = true
      · have hp' : z <+: domRep ++ subDotAux n false (cs.drop 3) := by
          rwa [show subDotAux (n + 1) p (c :: cs) = domRep ++ subDotAux n false (cs.drop 3) from by
            simp [subDotAux, hm]] at hp
        rcases eq_or_ne z [] with rfl | hzne
        · exact List.nil_prefix
        · have h3dot : ∀ z ∈ dotPat.tails, z.length < dotPat.length → z ≠ [] →
              ¬ z <+: domRep ∧ ¬ domRep <+: z := by decide
          rcases pfx_append_cases hp' with h1 | h1
          · exact absurd h1 (h3dot z ((List.mem_tails _ _).mpr hz) hzlen hzne).1
          · exact absurd h1 (h3dot z ((List.mem_tails _ _).mpr hz) hzlen hzne).2
      · have hp' : z <+: c :: subDotAux n (isWordChar c) cs := by
          rwa [show subDotAux (n + 1) p (c :: cs) = c :: subDotAux n (isWordChar c) cs from by
            simp [subDotAux, hm]] at hp
        cases z with
        | nil => exact List.nil_prefix
        | cons z0 z' =>
          rcases List.cons_prefix_cons.mp hp' with ⟨rfl, hz'⟩
          have hz'X : z' <:+ dotPat := (List.tail_suffix (z0 :: z')).trans hz
          have hz'len : z'.length < dotPat.length := by
            simp only [List.length_cons] at hzlen
            omega
          exact List.cons_prefix_cons.mpr ⟨rfl, ih (isWordChar z0) cs z' hz'X hz'len hz'⟩

theorem hasBDot_subDotAux :
    ∀ (fuel : Nat) (p : Bool) (s : List Char), s.length ≤ fuel →
      hasBDot p (subDotAux fuel p s) = false := by
  intro fuel
  induction fuel with
  | zero =>
    intro p s hlen
    have hs : s = [] := List.length_eq_zero.mp (Nat.le_zero.mp hlen)
    subst hs
    rfl
  | succ n ih =>
    intro p s hlen
    cases s with
    | nil => rfl
    | cons c cs =>
      simp only [List.length_cons] at hlen
      by_cases hm : (!p && dotPat.isPrefixOf (c :: cs)) = true
      · rw [show subDotAux (n + 1) p (c :: cs) = domRep ++ subDotAux n false (cs.drop 3) from by
          simp [subDotAux, hm]]
        rw [hasBDot_domRep]
        exact ih false (cs.drop 3) (by simp only [List.length_drop]; omega)
      · rw [show subDotAux (n + 1) p (c :: cs) = c :: subDotAux n (isWordChar c) cs from by
          simp [subDotAux, hm]]
        have htail : hasBDot (isWordChar c) (subDotAux n (isWordChar c) cs) = false :=
          ih (isWordChar c) cs (by omega)
        show ((!p && dotPat.isPrefixOf (c :: subDotAux n (isWordChar c) cs)) ||
            hasBDot (isWordChar c) (subDotAux n (isWordChar c) cs)) = false
        rw [htail, Bool.or_false]
        cases p with
        | true => rfl
        | false =>
          have hpf : dotPat.isPrefixOf (c :: cs) = false := by
            rw [Bool.eq_false_iff]
            intro hcon
            exact hm (by simp [hcon])
          have hhead : dotPat.isPrefixOf (c :: subDotAux n (isWordChar c) cs) = false := by
            rw [Bool.eq_false_iff]
            intro hcon
            have hcon' : dotPat <+: c :: subDotAux n (isWordChar c) cs :=
              List.isPrefixOf_iff_prefix.mp hcon
            rw [show dotPat = 'd' :: 'o' :: 't' :: '.' :: [] from rfl] at hcon'
            rcases List.cons_prefix_cons.mp hcon' with ⟨hd, htl⟩
            have htl' : ('o' :: 't' :: '.' :: []) <+: cs :=
              subPfxReflect n (isWordChar c) cs ('o' :: 't' :: '.' :: []) ⟨['d'], rfl⟩
                (by decide) htl
            have : dotPat <+: c :: cs := by
              rw [show dotPat = 'd' :: 'o' :: 't' :: '.' :: [] from rfl]
              exact List.cons_prefix_cons.mpr ⟨hd, htl'⟩
            rw [ List.isPrefixOf_iff_prefix.mpr this] at hpf
            exact Bool.true_eq_false.mp hpf
          rw [hhead]
          rfl

theorem subDotAux_id :
    ∀ (fuel : Nat) (p : Bool) (s : List Char), hasBDot p s = false → subDotAux fuel p s = s := by
  intro fuel
  induction fuel with
  | zero =>
    intro p s _
    cases s with
    | nil => rfl
    | cons c cs => rfl
  | succ n ih =>
    intro p s h
    cases s with
    | nil => rfl
    | cons c cs =>
      have h' : ((!p && dotPat.isPrefixOf (c :: cs)) || hasBDot (isWordChar c) cs) = false := h
      simp only [Bool.or_eq_false_iff] at h'
      obtain ⟨h1, h2⟩ := h'
      rw [show subDotAux (n + 1) p (c :: cs) = c :: subDotAux n (isWordChar c) cs from by
        simp [subDotAux, h1]]
      rw [ih (isWordChar c) cs h2]

theorem subDot_idem (s : List Char) : subDot (subDot s) = subDot s :=
  subDotAux_id (subDot s).length false (subDot s) (hasBDot_subDotAux s.length false s le_rfl)

theorem countNBDot_skip (p : Bool) {c : Char} {cs : List Char}
    (h : dotPat.isPrefixOf (c :: cs) = false) :
    countNBDot p (c :: cs) = countNBDot (isWordChar c) cs := by
  simp [countNBDot, h]

theorem countNBDot_false_cons (c : Char) (cs : List Char) :
    countNBDot false (c :: cs) = countNBDot (isWordChar c) cs := by
  simp [countNBDot]

theorem countNBDot_domRep (p : Bool) (w : List Char) :
    countNBDot p (domRep ++ w) = countNBDot false w := by
  rw [show domRep ++ w = 'd' :: 'o' :: 'm' :: 'a' :: 'i' :: 'n' :: '.' :: w from rfl]
  rw [countNBDot_skip p (dotPat_not_pfx_dom _)]
  rw [countNBDot_skip _ (dotPat_not_pfx _ (by decide))]
  rw [countNBDot_skip _ (dotPat_not_pfx _ (by decide))]
  rw [countNBDot_skip _ (dotPat_not_pfx _ (by decide))]
  rw [countNBDot_skip _ (dotPat_not_pfx _ (by decide))]
  rw [countNBDot_skip _ (dotPat_not_pfx _ (by decide))]
  rw [countNBDot_skip _ (dotPat_not_pfx _ (by decide))]
  rw [show isWordChar '.' = false from by decide]

theorem countNBDot_dotPrefix (rest : List Char) :
    countNBDot false ('d' :: 'o' :: 't' :: '.' :: rest) = countNBDot false rest := by
  rw [countNBDot_false_cons]
  rw [show isWordChar 'd' = true from by decide]
  rw [countNBDot_skip true (dotPat_not_pfx _ (by decide))]
  rw [show isWordChar 'o' = true from by decide]
  rw [countNBDot_skip true (dotPat_not_pfx _ (by decide))]
  rw [show isWordChar 't' = true from by decide]
  rw [countNBDot_skip true (dotPat_not_pfx _ (by decide))]
  rw [show isWordChar '.' = false from by decide]

theorem subDotAux_ot (m : Nat) (rest : List Char) :
    subDotAux (m + 3) true ('o' :: 't' :: '.' :: rest)
      = 'o' :: 't' :: '.' :: subDotAux m false rest := by
  rw [show subDotAux (m + 3) true ('o' :: 't' :: '.' :: rest)
      = 'o' :: subDotAux (m + 2) (isWordChar 'o') ('t' :: '.' :: rest) from by simp [subDotAux]]
  rw [show isWordChar 'o' = true from by decide]
  rw [show subDotAux (m + 2) true ('t' :: '.' :: rest)
      = 't' :: subDotAux (m + 1) (isWordChar 't') ('.' :: rest) from by simp [subDotAux]]
  rw [show isWordChar 't' = true from by decide]
  rw [show subDotAux (m + 1) true ('.' :: rest)
      = '.' :: subDotAux m (isWordChar '.') rest from by simp [subDotAux]]
  rw [show isWordChar '.' = false from by decide]

theorem countNBDot_subDotAux :
    ∀ (fuel : Nat) (p : Bool) (s : List Char), s.length ≤ fuel →
      countNBDot p (subDotAux fuel p s) = countNBDot p s := by
  intro fuel
  induction fuel with
  | zero =>
    intro p s hlen
    have hs : s = [] := List.length_eq_zero.mp (Nat.le_zero.mp hlen)
    subst hs
    rfl
  | succ n ih =>
    intro p s hlen
    cases s with
    | nil => rfl
    | cons c cs =>
      simp only [List.length_cons] at hlen
      by_cases hm : (!p && dotPat.isPrefixOf (c :: cs)) = true
      · rw [Bool.and_eq_true] at hm
        obtain ⟨h1, hpf⟩ := hm
        have hp : p = false := by
          cases p
          · rfl
          · exact absurd h1 (by decide)
        subst hp
        have hcp : dotPat <+: c :: cs := List.isPrefixOf_iff_prefix.mp hpf
        obtain ⟨rest, hrest⟩ := hcp
        have hrest' : 'd' :: 'o' :: 't' :: '.' :: rest = c :: cs := hrest
        injection hrest' with hc hcs
        subst hc
        subst hcs
        rw [show subDotAux (n + 1) false ('d' :: 'o' :: 't' :: '.' :: rest)
            = domRep ++ subDotAux n false (('o' :: 't' :: '.' :: rest).drop 3) from by
          simp [subDotAux, hpf]]
        rw [show ('o' :: 't' :: '.' :: rest).drop 3 = rest from rfl]
        rw [countNBDot_domRep]
        rw [ih false rest (by simp only [List.length_cons] at hlen; omega)]
        rw [countNBDot_dotPrefix]
      · rw [show subDotAux (n + 1) p (c :: cs) = c :: subDotAux n (isWordChar c) cs from by
          simp [subDotAux, hm]]
        show (if p && dotPat.isPrefixOf (c :: subDotAux n (isWordChar c) cs) then 1 else 0)
              + countNBDot (isWordChar c) (subDotAux n (isWordChar c) cs)
            = (if p && dotPat.isPrefixOf (c :: cs) then 1 else 0) + countNBDot (isWordChar c) cs
        rw [ih (isWordChar c) cs (by omega)]
        cases p with
        | false => rfl
        | true =>
          have hbool : dotPat.isPrefixOf (c :: subDotAux n (isWordChar c) cs)
              = dotPat.isPrefixOf (c :: cs) := by
            by_cases hpf : dotPat.isPrefixOf (c :: cs) = true
            · rw [hpf]
              have hcp : dotPat <+: c :: cs := List.isPrefixOf_iff_prefix.mp hpf
              obtain ⟨rest, hrest⟩ := hcp
              have hrest' : 'd' :: 'o' :: 't' :: '.' :: rest = c :: cs := hrest
              injection hrest' with hc hcs
              subst hc
              subst hcs
              have hn3 : 3 ≤ n := by simp only [List.length_cons] at hlen; omega
              obtain ⟨k, hk⟩ := Nat.exists_eq_add_of_le hn3
              rw [show isWordChar 'd' = true from by decide]
              rw [show n = k + 3 from by omega]
              rw [subDotAux_ot]
              simp [dotPat, List.isPrefixOf]
            · have hpf' : dotPat.isPrefixOf (c :: cs) = false := Bool.eq_false_iff.mpr hpf
              rw [hpf']
              rw [Bool.eq_false_iff]
              intro hcon
              have hcon' : dotPat <+: c :: subDotAux n (isWordChar c) cs :=
                List.isPrefixOf_iff_prefix.mp hcon
              rw [show dotPat = 'd' :: 'o' :: 't' :: '.' :: [] from rfl] at hcon'
              rcases List.cons_prefix_cons.mp hcon' with ⟨hd, htl⟩
              have htl' : ('o' :: 't' :: '.' :: []) <+: cs :=
                subPfxReflect n (isWordChar c) cs ('o' :: 't' :: '.' :: []) ⟨['d'], rfl⟩
                  (by decide) htl
              have hgot : dotPat <+: c :: cs := by
                rw [show dotPat = 'd' :: 'o' :: 't' :: '.' :: [] from rfl]
                exact List.cons_prefix_cons.mpr ⟨hd, htl'⟩
              rw [ List.isPrefixOf_iff_prefix.mpr hgot] at hpf'
              exact Bool.true_eq_false.mp hpf'
          rw [hbool]

theorem no_dStatus_RS (s : List Char) : ¬ dStatus <:+: replaceAll dStatus tStatus s :=
  replaceAllAux_no_pat dStatus tStatus (by decide) (by decide) (by decide) s.length s le_rfl

theorem no_dPkgInfo_RP (s : List Char) : ¬ dPkgInfo <:+: replaceAll dPkgInfo tPkgInfo s :=
  replaceAllAux_no_pat dPkgInfo tPkgInfo (by decide) (by decide) (by decide) s.length s le_rfl

theorem dStatus_not_new_RP {s : List Char} (h : ¬ dStatus <:+: s) :
    ¬ dStatus <:+: replaceAll dPkgInfo tPkgInfo s :=
  replaceAllAux_no_new dPkgInfo tPkgInfo dStatus (by decide) (by decide) (by decide)
    s.length s le_rfl h

theorem domImp_not_new_RS {s : List Char} (h : ¬ domImp <:+: s) :
    ¬ domImp <:+: replaceAll dStatus tStatus s :=
  replaceAllAux_no_new dStatus tStatus domImp (by decide) (by decide) (by decide)
    s.length s le_rfl h

theorem domImp_not_new_RP {s : List Char} (h : ¬ domImp <:+: s) :
    ¬ domImp <:+: replaceAll dPkgInfo tPkgInfo s :=
  replaceAllAux_no_new dPkgInfo tPkgInfo domImp (by decide) (by decide) (by decide)
    s.length s le_rfl h

theorem barePkg_pres_RS {s : List Char} (h : barePkg <:+: s) :
    barePkg <:+: replaceAll dStatus tStatus s :=
  replaceAllAux_preserves dStatus tStatus barePkg (by decide) (by decide) (by decide) (by decide)
    s.length s le_rfl h

theorem barePkg_pres_RP {s : List Char} (h : barePkg <:+: s) :
    barePkg <:+: replaceAll dPkgInfo tPkgInfo s :=
  replaceAllAux_preserves dPkgInfo tPkgInfo barePkg (by decide) (by decide) (by decide) (by decide)
    s.length s le_rfl h

theorem barePkg_intro_RA {s : List Char} (h : domImp <:+: s) :
    barePkg <:+: replaceAll domImp insRep s :=
  replaceAllAux_introduces domImp insRep barePkg (by decide) (by decide) s.length s le_rfl h

theorem fixContent_idem (c : List Char) : fixContent (fixContent c) = fixContent c := by
  have F1 : ¬ dStatus <:+: fixContent c := dStatus_not_new_RP (no_dStatus_RS (insertImport c))
  have F2 : ¬ dPkgInfo <:+: fixContent c :=
    no_dPkgInfo_RP (replaceAll dStatus tStatus (insertImport c))
  have hins : insertImport (fixContent c) = fixContent c := by
    unfold insertImport
    by_cases hcond : (containsSub bareDom (fixContent c)
        && !containsSub barePkg (fixContent c)) = true
    · rw [if_pos hcond]
      rw [Bool.and_eq_true] at hcond
      obtain ⟨hbd, hbp⟩ := hcond
      have hbpf : containsSub barePkg (fixContent c) = false := by simpa using hbp
      have hbp' : ¬ barePkg <:+: fixContent c := (containsSub_false_iff _ _).mp hbpf
      have hdi : ¬ domImp <:+: fixContent c := by
        intro hd
        have hd1 : domImp <:+: replaceAll dStatus tStatus (insertImport c) := by
          by_contra hno
          exact domImp_not_new_RP hno hd
        have hd2 : domImp <:+: insertImport c := by
          by_contra hno
          exact domImp_not_new_RS hno hd1
        by_cases hic : (containsSub bareDom c && !containsSub barePkg c) = true
        · have hinsc : insertImport c = replaceAll domImp insRep c := by
            unfold insertImport
            rw [if_pos hic]
          by_cases hdc : domImp <:+: c
          · have hbp1 : barePkg <:+: insertImport c := by
              rw [hinsc]
              exact barePkg_intro_RA hdc
            exact hbp' (barePkg_pres_RP (barePkg_pres_RS hbp1))
          · rw [hinsc, replaceAll_id _ _ _ hdc] at hd2
            exact hdc hd2
        · have hinsc : insertImport c = c := by
            unfold insertImport
            rw [if_neg hic]
          rw [hinsc] at hd2
          have hbdc : bareDom <:+: c := (show bareDom <:+: domImp from by decide).trans hd2
          have hbpc : barePkg <:+: c := by
            by_contra hnobp
            apply hic
            rw [Bool.and_eq_true]
            refine ⟨(containsSub_iff _ _).mpr hbdc, ?_⟩
            rw [(containsSub_false_iff _ _).mpr hnobp]
            rfl
          have hbp2 : barePkg <:+: fixContent c := by
            show barePkg <:+: replaceAll dPkgInfo tPkgInfo (replaceAll dStatus tStatus (insertImport c))
            rw [hinsc]
            exact barePkg_pres_RP (barePkg_pres_RS hbpc)
          exact hbp' hbp2
      exact replaceAll_id _ _ _ hdi
    · rw [if_neg hcond]
  show replaceAll dPkgInfo tPkgInfo (replaceAll dStatus tStatus (insertImport (fixContent c)))
      = fixContent c
  rw [hins, replaceAll_id _ _ _ F1, replaceAll_id _ _ _ F2]

theorem updateContent_idem_of_no_pkgImp (c : List Char)
    (h : ¬ pkgImp <:+: updateContent c) :
    updateContent (updateContent c) = updateContent c := by
  have hstep1 : replaceAll pkgImp domImp (updateContent c) = updateContent c :=
    replaceAll_id _ _ _ h
  show (if containsSub domMarker (replaceAll pkgImp domImp (updateContent c)) then
        subDot (replaceAll pkgImp domImp (updateContent c))
      else replaceAll pkgImp domImp (updateContent c)) = updateContent c
  rw [hstep1]
  by_cases hmk : containsSub domMarker (replaceAll pkgImp domImp c) = true
  · have hu : updateContent c = subDot (replaceAll pkgImp domImp c) := by
      show (if containsSub domMarker (replaceAll pkgImp domImp c) then
          subDot (replaceAll pkgImp domImp c) else replaceAll pkgImp domImp c)
          = subDot (replaceAll pkgImp domImp c)
      rw [if_pos hmk]
    by_cases hmk2 : containsSub domMarker (updateContent c) = true
    · rw [if_pos hmk2, hu, subDot_idem]
    · rw [if_neg hmk2]
  · have hu : updateContent c = replaceAll pkgImp domImp c := by
      show (if containsSub domMarker (replaceAll pkgImp domImp c) then
          subDot (replaceAll pkgImp domImp c) else replaceAll pkgImp domImp c)
          = replaceAll pkgImp domImp c
      rw [if_neg hmk]
    have hmk2 : ¬ containsSub domMarker (updateContent c) = true := by
      rw [hu]
      exact hmk
    rw [if_neg hmk2]

theorem stepA_missing (fs : FSt) (p : FPath) (h : lookupFS fs p = none) : stepA fs p = fs := by
  unfold stepA
  rw [h]

theorem stepA_existing_eq (fs : FSt) (p : FPath) (f : FSFile) (h : lookupFS fs p = some f) :
    stepA fs p = writeFS fs p (fixContent f.content) := by
  unfold stepA
  rw [h]

theorem lookupFS_none_stepA (fs : FSt) (p q : FPath) (h : lookupFS fs p = none) :
    lookupFS (stepA fs q) p = none := by
  cases hq : lookupFS fs q with
  | none =>
    rw [stepA_missing fs q hq]
    exact h
  | some f =>
    rw [stepA_existing_eq fs q f hq]
    exact lookupFS_none_writeFS fs p q _ h

theorem foldl_stepA_skip (l1 l2 : List FPath) (p : FPath) :
    ∀ (fs : FSt), lookupFS fs p = none →
      (l1 ++ p :: l2).foldl stepA fs = (l1 ++ l2).foldl stepA fs := by
  induction l1 with
  | nil =>
    intro fs h
    simp only [List.nil_append, List.foldl_cons]
    rw [stepA_missing fs p h]
  | cons q l1' ih =>
    intro fs h
    simp only [List.cons_append, List.foldl_cons]
    exact ih (stepA fs q) (lookupFS_none_stepA fs p q h)

theorem stepA_existing (fs : FSt) (p : FPath) (f : FSFile) (h : lookupFS fs p = some f) :
    lookupFS (stepA fs p) p = some (FSFile.mk (fixContent f.content) (f.mtime + 1)) := by
  rw [stepA_existing_eq fs p f h]
  exact lookupFS_writeFS_self fs p _ f h

theorem underPkg_inScope {pkg : String} (hpkg : pkg ∈ packages) {p : FPath}
    (h : underPkg pkg p = true) : inScopeB p = true := by
  unfold inScopeB
  rw [List.any_eq_true]
  exact ⟨pkg, hpkg, h⟩

theorem updateImportsInFile_frame (fs : FSt) (q p : FPath) (hne : p ≠ q) :
    lookupFS (updateImportsInFile fs q).1 p = lookupFS fs p := by
  unfold updateImportsInFile
  cases hq : lookupFS fs q with
  | none => rfl
  | some g =>
    show lookupFS (if updateContent g.content = g.content then (fs, false)
        else (writeFS fs q (updateContent g.content), true)).1 p = lookupFS fs p
    by_cases hch : updateContent g.content = g.content
    · rw [if_pos hch]
    · rw [if_neg hch]
      exact lookupFS_writeFS_ne fs p q _ hne

theorem processFileB_frame (st : FSt × List FPath) (q p : FPath) (hne : p ≠ q) :
    lookupFS (processFileB st q).1 p = lookupFS st.1 p ∧
      (p ∉ st.2 → p ∉ (processFileB st q).2) := by
  constructor
  · exact updateImportsInFile_frame st.1 q p hne
  · intro hmem
    show p ∉ (if (updateImportsInFile st.1 q).2 then st.2 ++ [q] else st.2)
    by_cases hb : (updateImportsInFile st.1 q).2 = true
    · rw [if_pos hb]
      intro hp
      rcases List.mem_append.mp hp with hin | hin
      · exact hmem hin
      · exact hne (List.mem_singleton.mp hin)
    · rw [if_neg hb]
      exact hmem

theorem foldl_processFileB_frame (l : List FPath) (p : FPath) (hnl : p ∉ l) :
    ∀ st : FSt × List FPath,
      lookupFS (l.foldl processFileB st).1 p = lookupFS st.1 p ∧
        (p ∉ st.2 → p ∉ (l.foldl processFileB st).2) := by
  induction l with
  | nil =>
    intro st
    exact ⟨rfl, fun h => h⟩
  | cons q l' ih =>
    intro st
    have hne : p ≠ q := fun hh => hnl (by rw [hh]; exact List.mem_cons_self q l')
    have hl' : p ∉ l' := fun hh => hnl (List.mem_cons_of_mem q hh)
    obtain ⟨hf1, hf2⟩ := processFileB_frame st q p hne
    obtain ⟨hg1, hg2⟩ := ih hl' (processFileB st q)
    exact ⟨by rw [List.foldl_cons, hg1, hf1], fun hmem => by
      rw [List.foldl_cons]
      exact hg2 (hf2 hmem)⟩

theorem processPkgB_frame (dirs : List FPath) (pkg : String) (hpkg : pkg ∈ packages)
    (p : FPath) (hns : inScopeB p = false) (st : FSt × List FPath) :
    lookupFS (processPkgB dirs st pkg).1 p = lookupFS st.1 p ∧
      (p ∉ st.2 → p ∉ (processPkgB dirs st pkg).2) := by
  unfold processPkgB
  by_cases hd : dirs.contains (("internal" : String) :: pkg :: []) = true
  · rw [if_pos hd]
    apply foldl_processFileB_frame
    intro hmem
    unfold rglobGo at hmem
    rw [List.mem_map] at hmem
    obtain ⟨e, hef, hep⟩ := hmem
    rw [List.mem_filter] at hef
    have hup : underPkg pkg p = true := hep ▸ hef.2
    rw [underPkg_inScope hpkg hup] at hns
    exact Bool.true_eq_false.mp hns
  · rw [if_neg hd]
    exact ⟨rfl, fun h => h⟩

theorem updateImportsMain_frame (dirs : List FPath) (fs : FSt) (p : FPath)
    (hns : inScopeB p = false) :
    lookupFS (updateImportsMain dirs fs).1 p = lookupFS fs p ∧
      p ∉ (updateImportsMain dirs fs).2 := by
  have main : ∀ (pl : List String), (∀ x ∈ pl, x ∈ packages) → ∀ st : FSt × List FPath,
      lookupFS (pl.foldl (processPkgB dirs) st).1 p = lookupFS st.1 p ∧
        (p ∉ st.2 → p ∉ (pl.foldl (processPkgB dirs) st).2) := by
    intro pl
    induction pl with
    | nil =>
      intro _ st
      exact ⟨rfl, fun h => h⟩
    | cons pkg pl' ih =>
      intro hsub st
      obtain ⟨hf1, hf2⟩ :=
        processPkgB_frame dirs pkg (hsub pkg (List.mem_cons_self pkg pl')) p hns st
      obtain ⟨hg1, hg2⟩ := ih (fun x hx => hsub x (List.mem_cons_of_mem pkg hx))
        (processPkgB dirs st pkg)
      exact ⟨by rw [List.foldl_cons, hg1, hf1], fun hmem => by
        rw [List.foldl_cons]
        exact hg2 (hf2 hmem)⟩
  obtain ⟨h1, h2⟩ := main packages (fun x hx => hx) (fs, [])
  exact ⟨h1, h2 (List.not_mem_nil p)⟩

theorem processFileB_unchanged (st : FSt × List FPath) (p : FPath) (f : FSFile)
    (hl : lookupFS st.1 p = some f) (hid : updateContent f.content = f.content) :
    processFileB st p = st := by
  simp [processFileB, updateImportsInFile, hl, hid]

/-- C1 counterexample: on the spec's end-to-end example content, which uses the
abbreviated import path `"pkg/dot"`, Renamer B's per-file transformation makes
no change at all (the code only replaces the full quoted path
`"github.com/jamesainslie/dot/pkg/dot"`), the input differs from the claimed
output, and a run over a filesystem holding exactly this file reports an empty
changed-files list. -/
theorem c1_counterexample :
    updateContent (("import \"pkg/dot\"\n\nfunc f() \x7b return dot.Status\x7b\x7d \x7d").data)
        = ("import \"pkg/dot\"\n\nfunc f() \x7b return dot.Status\x7b\x7d \x7d").data ∧
      ("import \"pkg/dot\"\n\nfunc f() \x7b return dot.Status\x7b\x7d \x7d").data
        ≠ ("import \"internal/domain\"\n\nfunc f() \x7b return domain.Status\x7b\x7d \x7d").data ∧
      (updateImportsMain [["internal", "cli"]]
          [(["internal", "cli", "x.go"],
            FSFile.mk (("import \"pkg/dot\"\n\nfunc f() \x7b return dot.Status\x7b\x7d \x7d").data)
              0)]).2 = [] := by
  refine ⟨by decide, by decide, by decide⟩

/-- C1 (amended): with the full quoted import paths that the code actually
replaces, the end-to-end example holds: the content
`import "github.com/jamesainslie/dot/pkg/dot"`, blank line,
`func f() { return dot.Status{} }` is rewritten to the same content with
the path replaced by `"github.com/jamesainslie/dot/internal/domain"` and
`dot.Status` replaced by `domain.Status`, the file is written back (its
modification counter is bumped), and its path appears in the reported
changed-files list. -/
theorem c1_amended :
    updateContent
        (("import \"github.com/jamesainslie/dot/pkg/dot\"\n\nfunc f() \x7b return dot.Status\x7b\x7d \x7d").data)
        = ("import \"github.com/jamesainslie/dot/internal/domain\"\n\nfunc f() \x7b return domain.Status\x7b\x7d \x7d").data ∧
      updateImportsMain [["internal", "cli"]]
          [(["internal", "cli", "x.go"],
            FSFile.mk
              (("import \"github.com/jamesainslie/dot/pkg/dot\"\n\nfunc f() \x7b return dot.Status\x7b\x7d \x7d").data)
              0)]
        = ([(["internal", "cli", "x.go"],
            FSFile.mk
              (("import \"github.com/jamesainslie/dot/internal/domain\"\n\nfunc f() \x7b return domain.Status\x7b\x7d \x7d").data)
              1)],
          [["internal", "cli", "x.go"]]) := by
  refine ⟨by decide, by decide⟩

/-- C2 counterexample: Renamer B's per-file transformation is not idempotent.
On the content consisting of the old quoted import string followed by the same
string with its opening quote removed, the first run's import replacement
re-creates an occurrence of the old import string (bridging the inserted
text's closing quote and the following text), so a second run changes the
content again. -/
theorem c2_counterexample :
    updateContent (updateContent (pkgImp ++ pkgImp.drop 1))
      ≠ updateContent (pkgImp ++ pkgImp.drop 1) := by
  decide

/-- C2 (amended): Renamer A's per-file transformation is idempotent on every
content.  Renamer B's per-file transformation applied twice agrees with one
application for every content whose once-transformed result no longer
contains the old quoted import string; contents on which the import
replacement re-creates the old import string (via overlapping occurrences)
are changed again by the second run. -/
theorem c2_idempotence :
    (∀ c, fixContent (fixContent c) = fixContent c) ∧
      (∀ c, containsSub pkgImp (updateContent c) = false →
        updateContent (updateContent c) = updateContent c) :=
  ⟨fixContent_idem,
   fun c h => updateContent_idem_of_no_pkgImp c ((containsSub_false_iff _ _).mp h)⟩

/-- C2 witness: the amended Renamer B idempotence applied at a concrete
content containing the full old import string. -/
theorem c2_witness :
    updateContent (updateContent (("x dot.Status \"github.com/jamesainslie/dot/pkg/dot\"").data))
      = updateContent (("x dot.Status \"github.com/jamesainslie/dot/pkg/dot\"").data) :=
  c2_idempotence.2 (("x dot.Status \"github.com/jamesainslie/dot/pkg/dot\"").data) (by decide)

/-- C3: the identifier rewrite of Renamer B replaces exactly the
word-boundary occurrences of `dot.`: the number of occurrences immediately
preceded by a word character is unchanged by the rewrite (such occurrences
are never rewritten), the output has no word-boundary occurrence left (all
of those were replaced), and on concrete contents `xdot.Field` is untouched
while `a dot.Field` becomes `a domain.Field`. -/
theorem c3_word_boundary :
    (∀ s, countNBDot false (subDot s) = countNBDot false s) ∧
      (∀ s, hasBDot false (subDot s) = false) ∧
      subDot (("xdot.Field").data) = ("xdot.Field").data ∧
      subDot (("a dot.Field").data) = ("a domain.Field").data :=
  ⟨fun s => countNBDot_subDotAux s.length false s le_rfl,
   fun s => hasBDot_subDotAux s.length false s le_rfl,
   by decide, by decide⟩

/-- C4: Renamer B performs the word-bounded identifier rewrite if and only if
the content after the import-string replacement contains the new import-path
marker; in particular a file that already contained the new import path while
never containing the old one (so the replacement step is the identity) still
gets its identifiers rewritten. -/
theorem c4_gating :
    (∀ c, containsSub domMarker (replaceAll pkgImp domImp c) = true →
        updateContent c = subDot (replaceAll pkgImp domImp c)) ∧
      (∀ c, containsSub domMarker (replaceAll pkgImp domImp c) = false →
        updateContent c = replaceAll pkgImp domImp c) ∧
      (∀ c, containsSub pkgImp c = false → containsSub domMarker c = true →
        updateContent c = subDot c) := by
  refine ⟨?_, ?_, ?_⟩
  · intro c h
    show (if containsSub domMarker (replaceAll pkgImp domImp c) then
        subDot (replaceAll pkgImp domImp c) else replaceAll pkgImp domImp c)
        = subDot (replaceAll pkgImp domImp c)
    rw [if_pos h]
  · intro c h
    show (if containsSub domMarker (replaceAll pkgImp domImp c) then
        subDot (replaceAll pkgImp domImp c) else replaceAll pkgImp domImp c)
        = replaceAll pkgImp domImp c
    rw [if_neg (by simp [h])]
  · intro c h1 h2
    have hid : replaceAll pkgImp domImp c = c :=
      replaceAll_id _ _ _ ((containsSub_false_iff _ _).mp h1)
    show (if containsSub domMarker (replaceAll pkgImp domImp c) then
        subDot (replaceAll pkgImp domImp c) else replaceAll pkgImp domImp c)
        = subDot c
    rw [hid, if_pos h2]

/-- C4 witness: a mixed-state content that already contains the new import
path marker and not the old import string still gets its identifiers
rewritten. -/
theorem c4_witness :
    updateContent (("github.com/jamesainslie/dot/internal/domain dot.X").data)
      = subDot (("github.com/jamesainslie/dot/internal/domain dot.X").data) :=
  c4_gating.2.2 (("github.com/jamesainslie/dot/internal/domain dot.X").data)
    (by decide) (by decide)

/-- C5 counterexample: a content containing both import markers need not be
left with exactly one occurrence of each: on
`internal/domain.Status pkg/dot` (one occurrence of each marker), the
`domain.Status` replacement destroys the `internal/domain` occurrence, so the
result contains zero occurrences of that marker. -/
theorem c5_counterexample :
    containsSub bareDom (("internal/domain.Status pkg/dot").data) = true ∧
      containsSub barePkg (("internal/domain.Status pkg/dot").data) = true ∧
      countSub bareDom (fixContent (("internal/domain.Status pkg/dot").data)) = 0 := by
  refine ⟨by decide, by decide, by decide⟩

/-- C5 (amended): for every content already containing both import markers,
Renamer A inserts no import line: the final content is exactly the original
with the two Status/PackageInfo replacements applied, and the `pkg/dot`
marker is still present afterwards.  (The `internal/domain` marker count is
not preserved in general, because a `domain.Status` replacement can overlap
an `internal/domain` occurrence.) -/
theorem c5_no_duplicate_insertion (c : List Char)
    (_h1 : containsSub bareDom c = true) (h2 : containsSub barePkg c = true) :
    fixContent c = replaceAll dPkgInfo tPkgInfo (replaceAll dStatus tStatus c) ∧
      containsSub barePkg (fixContent c) = true := by
  have hcond : (containsSub bareDom c && !containsSub barePkg c) = false := by
    rw [h2]
    simp
  have hins : insertImport c = c := by
    unfold insertImport
    rw [if_neg (by simp [hcond])]
  constructor
  · show replaceAll dPkgInfo tPkgInfo (replaceAll dStatus tStatus (insertImport c))
        = replaceAll dPkgInfo tPkgInfo (replaceAll dStatus tStatus c)
    rw [hins]
  · show containsSub barePkg
        (replaceAll dPkgInfo tPkgInfo (replaceAll dStatus tStatus (insertImport c))) = true
    rw [hins, containsSub_iff]
    exact barePkg_pres_RP (barePkg_pres_RS ((containsSub_iff _ _).mp h2))

/-- C5 witness: the amended statement applied at a concrete content
containing both markers. -/
theorem c5_witness :
    fixContent (("internal/domain pkg/dot domain.Status").data)
        = replaceAll dPkgInfo tPkgInfo
            (replaceAll dStatus tStatus (("internal/domain pkg/dot domain.Status").data)) ∧
      containsSub barePkg (fixContent (("internal/domain pkg/dot domain.Status").data)) = true :=
  c5_no_duplicate_insertion (("internal/domain pkg/dot domain.Status").data)
    (by decide) (by decide)

/-- C6: a file whose content is unaffected by both of Renamer B's
substitution steps is not written back: the whole state (filesystem,
including the file's content and modification counter, and the changed-files
list) is left exactly as it was, the file's entry is untouched, and its path
is not recorded. -/
theorem c6_write_only_on_change (st : FSt × List FPath) (p : FPath) (f : FSFile)
    (hl : lookupFS st.1 p = some f) (hid : updateContent f.content = f.content) :
    processFileB st p = st ∧
      lookupFS (processFileB st p).1 p = some f ∧
      (p ∉ st.2 → p ∉ (processFileB st p).2) := by
  have h := processFileB_unchanged st p f hl hid
  refine ⟨h, by rw [h]; exact hl, fun hm => by rw [h]; exact hm⟩

/-- C6 witness: a file whose content mentions neither import path is left
untouched with its modification counter intact. -/
theorem c6_witness :
    processFileB ([(["internal", "cli", "a.go"], FSFile.mk (("package cli").data) 7)], [])
        (["internal", "cli", "a.go"])
      = ([(["internal", "cli", "a.go"], FSFile.mk (("package cli").data) 7)], []) ∧
      lookupFS (processFileB
          ([(["internal", "cli", "a.go"], FSFile.mk (("package cli").data) 7)], [])
          (["internal", "cli", "a.go"])).1 (["internal", "cli", "a.go"])
        = some (FSFile.mk (("package cli").data) 7) ∧
      ((["internal", "cli", "a.go"] : FPath)
          ∉ (([] : List FPath)) →
        (["internal", "cli", "a.go"] : FPath)
          ∉ (processFileB
            ([(["internal", "cli", "a.go"], FSFile.mk (("package cli").data) 7)], [])
            (["internal", "cli", "a.go"])).2) :=
  c6_write_only_on_change _ _ (FSFile.mk (("package cli").data) 7) (by decide) (by decide)

/-- C7: missing targets are skipped silently by both renamers: a path of
Renamer A's fixed list that does not exist on disk leaves the filesystem
unchanged, deleting such an entry from the processing list does not affect
the run at all (subsequent entries are processed identically), and a package
of Renamer B's list whose directory does not exist is skipped with the state
unchanged. -/
theorem c7_skip_on_missing :
    (∀ (fs : FSt) (p : FPath), lookupFS fs p = none → stepA fs p = fs) ∧
      (∀ (fs : FSt) (l1 l2 : List FPath) (p : FPath), lookupFS fs p = none →
        (l1 ++ p :: l2).foldl stepA fs = (l1 ++ l2).foldl stepA fs) ∧
      (∀ (dirs : List FPath) (st : FSt × List FPath) (pkg : String),
        dirs.contains (("internal" : String) :: pkg :: []) = false →
        processPkgB dirs st pkg = st) := by
  refine ⟨stepA_missing, ?_, ?_⟩
  · intro fs l1 l2 p h
    exact foldl_stepA_skip l1 l2 p fs h
  · intro dirs st pkg h
    unfold processPkgB
    rw [if_neg (by intro hc; rw [h] at hc; exact Bool.false_ne_true hc)]

/-- C7 witness: skipping a missing renderer file on an empty filesystem and
skipping a missing package directory. -/
theorem c7_witness :
    stepA [] (["internal", "cli", "renderer", "json.go"]) = [] ∧
      processPkgB [] (([] : FSt), ([] : List FPath)) "executor" = (([] : FSt), ([] : List FPath)) :=
  ⟨c7_skip_on_missing.1 [] (["internal", "cli", "renderer", "json.go"]) (by decide),
   c7_skip_on_missing.2.2 [] (([] : FSt), ([] : List FPath)) "executor" (by decide)⟩

/-- C8: for every existing file of Renamer A's list, the file ends up holding
exactly the conditional insertion followed by the two literal replacements
(`domain.Status` to `dot.Status` then `domain.PackageInfo` to
`dot.PackageInfo`), and the write happens unconditionally: the modification
counter is bumped even when the content is unchanged.  The replacements carry
no word-boundary guard: `xdomain.Status` becomes `xdot.Status`. -/
theorem c8_unconditional_write (fs : FSt) (p : FPath) (f : FSFile)
    (h : lookupFS fs p = some f) :
    lookupFS (stepA fs p) p
        = some (FSFile.mk
            (replaceAll dPkgInfo tPkgInfo (replaceAll dStatus tStatus (insertImport f.content)))
            (f.mtime + 1)) ∧
      replaceAll dStatus tStatus (("xdomain.Status").data) = ("xdot.Status").data :=
  ⟨stepA_existing fs p f h, by decide⟩

/-- C8 witness: a renderer file whose content the replacements do not change
is still written: its modification counter goes from 3 to 4. -/
theorem c8_witness :
    lookupFS (stepA [(["internal", "cli", "renderer", "json.go"],
          FSFile.mk (("package renderer").data) 3)]
        (["internal", "cli", "renderer", "json.go"])) (["internal", "cli", "renderer", "json.go"])
        = some (FSFile.mk
            (replaceAll dPkgInfo tPkgInfo
              (replaceAll dStatus tStatus (insertImport (("package renderer").data))))
            4) ∧
      replaceAll dStatus tStatus (("xdomain.Status").data) = ("xdot.Status").data :=
  c8_unconditional_write
    [(["internal", "cli", "renderer", "json.go"], FSFile.mk (("package renderer").data) 3)]
    (["internal", "cli", "renderer", "json.go"]) (FSFile.mk (("package renderer").data) 3)
    (by decide)

/-- C9: Renamer A's insertion condition tests the bare substring
`internal/domain`, but the insertion rewrites only exact occurrences of the
full quoted import string; hence on a content containing the bare marker but
neither `pkg/dot` nor the full quoted string, the condition holds yet nothing
is inserted, and the final content is exactly the original with the two
Status/PackageInfo replacements applied. -/
theorem c9_bare_marker_no_insertion (c : List Char)
    (h1 : containsSub bareDom c = true)
    (h2 : containsSub barePkg c = false)
    (h3 : containsSub domImp c = false) :
    fixContent c = replaceAll dPkgInfo tPkgInfo (replaceAll dStatus tStatus c) := by
  have hins : insertImport c = replaceAll domImp insRep c := by
    unfold insertImport
    rw [if_pos (by rw [h1, h2]; rfl)]
  have hid : replaceAll domImp insRep c = c :=
    replaceAll_id _ _ _ ((containsSub_false_iff _ _).mp h3)
  show replaceAll dPkgInfo tPkgInfo (replaceAll dStatus tStatus (insertImport c))
      = replaceAll dPkgInfo tPkgInfo (replaceAll dStatus tStatus c)
  rw [hins, hid]

/-- C9 witness: a content with the bare `internal/domain` marker but no
quoted import string gets no insertion, only the replacements. -/
theorem c9_witness :
    fixContent (("internal/domain domain.Status").data)
      = replaceAll dPkgInfo tPkgInfo
          (replaceAll dStatus tStatus (("internal/domain domain.Status").data)) :=
  c9_bare_marker_no_insertion (("internal/domain domain.Status").data)
    (by decide) (by decide) (by decide)

/-- C10: a run of Renamer B touches only `*.go` files under the nine listed
subdirectories of `internal/`: every file out of that scope (in particular
anything under `internal/domain` or `internal/api`) keeps its exact entry
(content and modification counter) and never appears in the reported
changed-files list. -/
theorem c10_scope_frame (dirs : List FPath) (fs : FSt) (p : FPath) (f : FSFile)
    (hns : inScopeB p = false) (hl : lookupFS fs p = some f) :
    lookupFS (updateImportsMain dirs fs).1 p = some f ∧
      p ∉ (updateImportsMain dirs fs).2 := by
  obtain ⟨h1, h2⟩ := updateImportsMain_frame dirs fs p hns
  exact ⟨by rw [h1]; exact hl, h2⟩

/-- C10 witness: a file under `internal/domain` holding the old import string
(which the transformation would change if it were processed) is left exactly
as it is by a full run, and is not reported. -/
theorem c10_witness :
    lookupFS (updateImportsMain [["internal", "domain"], ["internal", "cli"]]
          [(["internal", "domain", "types.go"], FSFile.mk pkgImp 5)]).1
        (["internal", "domain", "types.go"]) = some (FSFile.mk pkgImp 5) ∧
      (["internal", "domain", "types.go"] : FPath)
        ∉ (updateImportsMain [["internal", "domain"], ["internal", "cli"]]
            [(["internal", "domain", "types.go"], FSFile.mk pkgImp 5)]).2 :=
  c10_scope_frame [["internal", "domain"], ["internal", "cli"]]
    [(["internal", "domain", "types.go"], FSFile.mk pkgImp 5)]
    (["internal", "domain", "types.go"]) (FSFile.mk pkgImp 5) (by decide) (by decide)
